import Mathlib

/-!
Shallow embedding of the orange/range library (aaronmcdaid/module-range).

The library is a trait-based range abstraction: each range type declares a
subset of the primitive operations (empty, front_val, front_ref, advance,
pull), and the library synthesizes the missing-but-derivable ones
(orange::front_val from front_ref, orange::pull from front_val+advance or
front_ref+advance).  Combinators (map, filter, zip, collect, accumulate,
take_collect) are implemented purely in terms of the synthesized interface.

The embedding below models:
  - the trait record with optional members and the dispatch overloads
    (src/orange.hh lines 255-337, src/unnamed/part_002 lines 294-391);
  - pair_of_values, the integer-interval range (src/orange.hh 386-409,
    src/unnamed/part_002 521-553);
  - the combinators collect / accumulate / take_collect, whose loops are
    modelled with an explicit fuel parameter (the C++ while-loops have no
    a-priori bound; a loop that the C++ code runs forever corresponds here
    to the loop consuming every amount of fuel without reaching its exit
    condition);
  - mapping_range, filter_range, zip_t / zip_val_t and from_vector_t.

Machine int is modelled as Int: the library treats bounds as mathematical
scalar values (overflow is UB in the source and no claim depends on it).
-/

set_option autoImplicit false

namespace orange

/-- Trait record for a range over state type sigma with element type alpha.
Mirrors the capability set detected by has_trait_empty / has_trait_advance /
has_trait_front_val / has_trait_front_ref / has_trait_pull in the source:
a member is `some f` exactly when the trait declares that operation.
front_ref is modelled by the value read through the reference; pull returns
the pulled value together with the new state (C++ mutates in place). -/
structure traits_t (σ α : Type) where
  empty : σ → Bool
  advance : Option (σ → σ)
  front_val : Option (σ → α)
  front_ref : Option (σ → α)
  pull : Option (σ → α × σ)

/-- Dispatcher orange::empty (src/orange.hh 256-260): the single overload,
requiring the trait to declare empty (which every range must). -/
def orange_empty {σ α : Type} (t : traits_t σ α) (s : σ) : Bool :=
  t.empty s

/-- Dispatcher orange::front_val (src/orange.hh 262-275): use the declared
front_val when present, else fall back to the declared front_ref (copy-out).
A result of none corresponds to overload-set rejection at compile time. -/
def orange_front_val {σ α : Type} (t : traits_t σ α) (s : σ) : Option α :=
  match t.front_val with
  | some fv => some (fv s)
  | none =>
    match t.front_ref with
    | some fr => some (fr s)
    | none => none

/-- Dispatcher orange::advance (src/orange.hh 284-289): single overload,
requires the trait to declare advance. -/
def orange_advance {σ α : Type} (t : traits_t σ α) (s : σ) : Option σ :=
  match t.advance with
  | some adv => some (adv s)
  | none => none

/-- Dispatcher orange::pull, three overloads (src/orange.hh 313-337):
1. the trait declares pull: use it;
2. no pull, but front_val and advance: copy the current value, advance,
   return the copy;
3. no pull, no front_val, but front_ref and advance: same with front_ref. -/
def orange_pull {σ α : Type} (t : traits_t σ α) (s : σ) : Option (α × σ) :=
  match t.pull with
  | some p => some (p s)
  | none =>
    match t.front_val, t.front_ref, t.advance with
    | some fv, _, some adv => some (fv s, adv s)
    | none, some fr, some adv => some (fr s, adv s)
    | _, _, _ => none

/-- Manually calling orange::front_val, then orange::advance, then returning
the captured value (the reference behaviour that the synthesized pull is
claimed to match). -/
def manual_pull {σ α : Type} (t : traits_t σ α) (s : σ) : Option (α × σ) :=
  match orange_front_val t s, orange_advance t s with
  | some v, some s2 => some (v, s2)
  | _, _ => none

/-- Iterate orange::pull n times from a state, collecting the pulled values
and the final state; none if any step is rejected. -/
def orange_pullN {σ α : Type} (t : traits_t σ α) : Nat → σ → Option (List α × σ)
  | 0, s => some ([], s)
  | n + 1, s =>
    match orange_pull t s with
    | some (v, s2) =>
      match orange_pullN t n s2 with
      | some (vs, s3) => some (v :: vs, s3)
      | none => none
    | none => none

/-- Iterate the manual front_val-then-advance sequence n times. -/
def manual_pullN {σ α : Type} (t : traits_t σ α) : Nat → σ → Option (List α × σ)
  | 0, s => some ([], s)
  | n + 1, s =>
    match manual_pull t s with
    | some (v, s2) =>
      match manual_pullN t n s2 with
      | some (vs, s3) => some (v :: vs, s3)
      | none => none
    | none => none

/-- State of pair_of_values, the interval range over an ordered scalar type
(src/orange.hh 372-374, src/unnamed/part_002 521-526): two stored bounds. -/
structure pair_of_values where
  m_begin : Int
  m_end : Int
deriving DecidableEq

/-- Trait empty for pair_of_values (src/orange.hh 389): compares the two
bounds for equality only. -/
def pov_empty (r : pair_of_values) : Bool :=
  r.m_begin == r.m_end

/-- Trait front_val for pair_of_values (src/orange.hh 392): returns m_begin. -/
def pov_front_val (r : pair_of_values) : Int :=
  r.m_begin

/-- Trait advance for pair_of_values (src/orange.hh 395): increments m_begin. -/
def pov_advance (r : pair_of_values) : pair_of_values :=
  { r with m_begin := r.m_begin + 1 }

/-- The trait object of pair_of_values: declares empty, front_val and advance
but neither front_ref nor pull (src/orange.hh 386-402). -/
def pov_traits : traits_t pair_of_values Int :=
  { empty := pov_empty
  , advance := some pov_advance
  , front_val := some pov_front_val
  , front_ref := none
  , pull := none }

/-- Factory ints(u) = the interval [0,u) (src/orange.hh 406). -/
def ints (u : Int) : pair_of_values :=
  { m_begin := 0, m_end := u }

/-- Factory ints(l,u) = the interval [l,u) (src/orange.hh 409). -/
def ints2 (l u : Int) : pair_of_values :=
  { m_begin := l, m_end := u }

/-- Iterated pov_advance. -/
def pov_advanceN : Nat → pair_of_values → pair_of_values
  | 0, r => r
  | n + 1, r => pov_advanceN n (pov_advance r)

/-- The operation set a combinator sees for an adapter that declares
empty, front_val and advance (pair_of_values, mapping_range, filter_range,
zip_t all declare exactly these three): for such adapters orange::pull is
the synthesized copy-then-advance, so the combinator loops below read
front_val and then advance. -/
structure SeqOps (σ α : Type) where
  empty : σ → Bool
  front_val : σ → α
  advance : σ → σ

/-- The SeqOps view of pair_of_values. -/
def pov_ops : SeqOps pair_of_values Int :=
  { empty := pov_empty, front_val := pov_front_val, advance := pov_advance }

/-- Fuelled collect loop (src/orange.hh 588-598, src/unnamed/part_002
892-904): while the range is not empty, push_back(pull(r)).  pull here is
the synthesized front_val-then-advance. -/
def collect {σ α : Type} (ops : SeqOps σ α) : Nat → σ → List α
  | 0, _ => []
  | n + 1, s =>
    if ops.empty s then []
    else ops.front_val s :: collect ops n (ops.advance s)

/-- Fuelled accumulate loop (src/orange.hh 608-625, src/unnamed/part_002
922-939): value_type total = 0; while not empty, total += pull(r).
The accumulator is threaded as the last argument. -/
def accumulate {σ : Type} (ops : SeqOps σ Int) : Nat → σ → Int → Int
  | 0, _, total => total
  | n + 1, s, total =>
    if ops.empty s then total
    else accumulate ops n (ops.advance s) (total + ops.front_val s)

/-- take_collect (src/orange.hh 628-643, src/unnamed/part_002 942-958):
while(!empty(r) && how_many>0) { push_back(front_val(r)); advance(r);
--how_many; }.  This loop always terminates in the source too, because
how_many strictly decreases. -/
def take_collect {σ α : Type} (ops : SeqOps σ α) (how_many : Int) (s : σ) : List α :=
  if h : ops.empty s = false ∧ 0 < how_many then
    ops.front_val s :: take_collect ops (how_many - 1) (ops.advance s)
  else []
termination_by how_many.toNat
decreasing_by
  simp_wf
  omega

/-- mapping_range (src/orange.hh 537-556, src/unnamed/part_001 1004-1019):
stores the underlying range and the function; empty and advance delegate to
the underlying range, front_val applies m_f to the underlying front_val. -/
def mapping_range {σ α β : Type} (ops : SeqOps σ α) (m_f : α → β) : SeqOps σ β :=
  { empty := ops.empty
  , front_val := fun s => m_f (ops.front_val s)
  , advance := ops.advance }

/-- The skip-loop skip_if_necessary of filter_range (src/unnamed/part_001
1081-1086, src/unnamed/part_002 838-843): while the underlying range is
non-empty and the predicate fails on its front value, advance it.  Fuelled;
for an interval with m_begin <= m_end a fuel of (m_end - m_begin).toNat is
enough for the loop to reach its exit condition. -/
def skip_if_necessary (m_f : Int → Bool) : Nat → pair_of_values → pair_of_values
  | 0, r => r
  | fuel + 1, r =>
    if !pov_empty r && !m_f (pov_front_val r) then
      skip_if_necessary m_f fuel (pov_advance r)
    else r

/-- The filter_range constructor (src/unnamed/part_001 1088-1092): stores the
range and predicate and immediately runs skip_if_necessary. -/
def filter_range_make (m_f : Int → Bool) (fuel : Nat) (r : pair_of_values) : pair_of_values :=
  skip_if_necessary m_f fuel r

/-- The trait operations of filter_range over a pair_of_values
(src/unnamed/part_001 1094-1099): empty and front_val delegate to the
underlying range; advance advances the underlying range and then re-runs
skip_if_necessary. -/
def filter_ops (m_f : Int → Bool) (fuel : Nat) : SeqOps pair_of_values Int :=
  { empty := pov_empty
  , front_val := pov_front_val
  , advance := fun r => skip_if_necessary m_f fuel (pov_advance r) }

/-- The odd predicate odd_t from the source tests
(src/unnamed/part_002 970-973). -/
def odd_t (x : Int) : Bool :=
  x % 2 == 1

/-- zip_t over two member ranges, values_only policy (src/unnamed/part_001
1322-1448, src/unnamed/part_002 1091-1154): empty iff any member is empty,
advance advances every member, front_val is the tuple of the members'
front_val. -/
def zip_t {σ₁ σ₂ α β : Type} (o1 : SeqOps σ₁ α) (o2 : SeqOps σ₂ β) :
    SeqOps (σ₁ × σ₂) (α × β) :=
  { empty := fun z => o1.empty z.1 || o2.empty z.2
  , front_val := fun z => (o1.front_val z.1, o2.front_val z.2)
  , advance := fun z => (o1.advance z.1, o2.advance z.2) }

/-- A pair_of_iterators over a container (src/orange.hh 437-456), modelled
by the suffix of elements between the two iterators: first == second is
emptiness, ++first drops the head, *first reads the head. -/
def list_ops : SeqOps (List Int) Int :=
  { empty := fun xs => xs.isEmpty
  , front_val := fun xs => xs.headI
  , advance := fun xs => xs.tail }

/-- is_definitely_infinite for a member type with no is_definitely_infinite
method (src/unnamed/part_004 143-147, the priority_tag<0> fallback):
false. -/
def list_is_definitely_infinite (_ : List Int) : Bool :=
  false

/-- zip_val_t::empty with enforce_same_length = true, for two list members
(src/unnamed/part_004 281-302): if every member is non-empty, return false;
otherwise assert that every member is definitely-infinite or empty, and
return true.  The result none models the assertion firing. -/
def zip_val_empty (xs ys : List Int) : Option Bool :=
  if !xs.isEmpty && !ys.isEmpty then some false
  else
    if (list_is_definitely_infinite xs || xs.isEmpty)
        && (list_is_definitely_infinite ys || ys.isEmpty) then some true
    else none

/-- The dedicated error type pull_from_empty_range_error
(src/unnamed/part_004 199-201). -/
structure pull_from_empty_range_error where
  mk ::

/-- Test whether an Except raised its error. -/
def raised {ε A : Type} : Except ε A → Bool
  | Except.error _ => true
  | Except.ok _ => false

/-- Modelled from the spec: the defensive-checking pull adapter is missing
from src/ — only the error type pull_from_empty_range_error
(src/unnamed/part_004 199-201) and the doc comment "might throw
pull_from_empty_range_error" (src/unnamed/part_004 35) are present, and no
code under src/ throws it.  Per the spec (section 7), the error is "raised
when pull is invoked on an already-empty sequence, to be used by adapters
that choose defensive checking"; pull itself is front_val followed by
advance.  Modelled over the list-backed range. -/
def defensive_pull (xs : List Int) :
    Except pull_from_empty_range_error (Int × List Int) :=
  if xs.isEmpty then Except.error {}
  else Except.ok (list_ops.front_val xs, list_ops.advance xs)

/-- State of from_vector_t (src/unnamed/part_004 203-253): the container and
the current index m_i. -/
structure from_vector_t where
  m_v : List Int
  m_i : Nat
deriving DecidableEq

/-- from_vector_t::empty (src/unnamed/part_004 216): m_i >= m_v.size(). -/
def fv_empty (r : from_vector_t) : Bool :=
  r.m_v.length ≤ r.m_i

/-- from_vector_t::advance (src/unnamed/part_004 217): ++m_i. -/
def fv_advance (r : from_vector_t) : from_vector_t :=
  { r with m_i := r.m_i + 1 }

/-- Reading through from_vector_t::front_ref (src/unnamed/part_004 218-219):
the element at index m_i of the stored container. -/
def fv_front_ref_read (r : from_vector_t) : Int :=
  r.m_v.getD r.m_i 0

/-- Writing through the reference returned by from_vector_t::front_ref:
replaces the element at index m_i of the stored container. -/
def fv_write_front_ref (r : from_vector_t) (v : Int) : from_vector_t :=
  { r with m_v := r.m_v.set r.m_i v }

/-- The trait object of from_vector_t: declares empty, advance and front_ref
but not front_val and not pull (src/unnamed/part_004 203-253; front_val is
then synthesized by copy-out, src/unnamed/part_004 57-59). -/
def fv_traits : traits_t from_vector_t Int :=
  { empty := fv_empty
  , advance := some fv_advance
  , front_val := none
  , front_ref := some fv_front_ref_read
  , pull := none }

end orange

open orange

/-- The fuelled accumulate loop computes the running total plus the sum of
the values the fuelled collect loop gathers from the same state. -/
theorem accumulate_eq_sum_collect {σ : Type} (ops : SeqOps σ Int) :
    ∀ (n : Nat) (s : σ) (total : Int),
      accumulate ops n s total = total + (collect ops n s).sum := by
  intro n
  induction n with
  | zero =>
    intro s total
    simp [accumulate, collect]
  | succ n ih =>
    intro s total
    simp only [accumulate, collect]
    by_cases h : ops.empty s
    · simp [h]
    · simp only [h, if_false, Bool.false_eq_true, List.sum_cons, ih]
      ring

/-- Advancing a pair_of_values k times adds k to the stored begin bound and
leaves the stored end bound unchanged. -/
theorem pov_advanceN_spec :
    ∀ (k : Nat) (r : pair_of_values),
      (pov_advanceN k r).m_begin = r.m_begin + k ∧
      (pov_advanceN k r).m_end = r.m_end := by
  intro k
  induction k with
  | zero =>
    intro r
    simp [pov_advanceN]
  | succ k ih =>
    intro r
    have h := ih (pov_advance r)
    simp only [pov_advanceN, pov_advance] at h ⊢
    refine ⟨?_, h.2⟩
    rw [h.1]
    push_cast
    ring

/-- With the begin bound strictly above the end bound, the fuelled collect
loop never reaches the exit condition: it consumes all its fuel, producing
one element per unit of fuel. -/
theorem collect_length_of_lt {u : Int} :
    ∀ (n : Nat) (l : Int), u < l →
      (collect pov_ops n (ints2 l u)).length = n := by
  intro n
  induction n with
  | zero =>
    intro l _
    rfl
  | succ n ih =>
    intro l h
    have hne : pov_ops.empty (ints2 l u) = false := by
      simp only [pov_ops, pov_empty, ints2, beq_eq_false_iff_ne, ne_eq]
      omega
    simp only [collect, hne, Bool.false_eq_true, if_false, List.length_cons]
    have hadv : pov_ops.advance (ints2 l u) = ints2 (l + 1) u := rfl
    rw [hadv, ih (l + 1) (by omega)]

/-- C1.  For every sequence type whose trait declares front_val, advance and
empty but not pull, the synthesized orange::pull behaves identically to
manually calling orange::front_val, then orange::advance, then returning the
captured value: each single pull returns the same value and leaves the
sequence in the same state, and hence iterating pull from any position of a
finite sequence produces the same value trace and the same final state as
iterating the manual sequence. -/
theorem claim_C1 {σ α : Type} (t : traits_t σ α)
    (hp : t.pull = none) (hf : t.front_val.isSome = true)
    (ha : t.advance.isSome = true) :
    (∀ s : σ, orange_pull t s = manual_pull t s) ∧
    (∀ (n : Nat) (s : σ), orange_pullN t n s = manual_pullN t n s) := by
  cases hfv : t.front_val with
  | none =>
    rw [hfv] at hf
    simp [Option.isSome] at hf
  | some fv =>
    cases hadv : t.advance with
    | none =>
      rw [hadv] at ha
      simp [Option.isSome] at ha
    | some adv =>
      have hstep : ∀ s : σ, orange_pull t s = manual_pull t s := by
        intro s
        simp [orange_pull, manual_pull, orange_front_val, orange_advance,
          hp, hfv, hadv]
      refine ⟨hstep, ?_⟩
      intro n
      induction n with
      | zero =>
        intro s
        rfl
      | succ n ih =>
        intro s
        simp only [orange_pullN, manual_pullN, hstep]
        cases manual_pull t s with
        | none => rfl
        | some vs =>
          cases vs with
          | mk v s2 => simp [ih]

/-- C1 witness: the trait object of pair_of_values declares front_val,
advance and empty but not pull, and at the interval [0,3) the pull trace of
length 3 matches the manual trace. -/
theorem claim_C1_witness :
    orange_pullN pov_traits 3 (ints 3) = manual_pullN pov_traits 3 (ints 3) :=
  (claim_C1 pov_traits rfl rfl rfl).2 3 (ints 3)

/-- C4.  accumulate drains the sequence via pull, summing the elements into
a zero-initialized accumulator: for every sequence and every amount of fuel
it returns exactly the sum of the elements collect gathers; over the
interval [0,5) it returns 10; over an empty interval it returns 0, the
additive identity. -/
theorem claim_C4 :
    (∀ (σ : Type) (ops : SeqOps σ Int) (n : Nat) (s : σ),
      accumulate ops n s 0 = (collect ops n s).sum) ∧
    accumulate pov_ops 5 (ints 5) 0 = 10 ∧
    (∀ (l : Int) (n : Nat), accumulate pov_ops n (ints2 l l) 0 = 0) := by
  refine ⟨?_, by decide, ?_⟩
  · intro σ ops n s
    rw [accumulate_eq_sum_collect]
    ring
  · intro l n
    cases n with
    | zero => rfl
    | succ n =>
      simp [accumulate, pov_ops, pov_empty, ints2]

/-- C8.  Map is composition-preserving: chaining map f and then map g yields
literally the same sequence of operations as the single stage map (g after
f) — the two adapters are equal, so collecting them from any state with any
fuel yields the same elements pointwise — and mapping x*x over the interval
[0,4) and collecting yields exactly [0,1,4,9].  Laziness is structural in
the model: mapping_range only wraps the underlying operations and touches no
element at construction time. -/
theorem claim_C8 :
    (∀ (σ α β γ : Type) (ops : SeqOps σ α) (f : α → β) (g : β → γ),
      mapping_range (mapping_range ops f) g
        = mapping_range ops (fun x => g (f x)) ∧
      ∀ (n : Nat) (s : σ),
        collect (mapping_range (mapping_range ops f) g) n s
          = collect (mapping_range ops (fun x => g (f x))) n s) ∧
    collect (mapping_range pov_ops (fun x => x * x)) 4 (ints 4) = [0, 1, 4, 9] := by
  refine ⟨?_, by decide⟩
  intro σ α β γ ops f g
  exact ⟨rfl, fun n s => rfl⟩

/-- C9.  An interval sequence whose stored begin bound is strictly greater
than its stored end bound is not empty — empty compares the bounds for
equality only — and advancing preserves this, so it never becomes empty no
matter how often it is advanced; consequently a draining loop applied to it
never reaches its exit condition, consuming any amount of fuel. -/
theorem claim_C9 (l u : Int) (h : u < l) :
    (∀ k : Nat, pov_empty (pov_advanceN k (ints2 l u)) = false) ∧
    (∀ n : Nat, (collect pov_ops n (ints2 l u)).length = n) := by
  constructor
  · intro k
    have h1 : (pov_advanceN k (ints2 l u)).m_begin = l + k := by
      simpa [ints2] using (pov_advanceN_spec k (ints2 l u)).1
    have h2 : (pov_advanceN k (ints2 l u)).m_end = u := by
      simpa [ints2] using (pov_advanceN_spec k (ints2 l u)).2
    simp only [pov_empty, h1, h2, beq_eq_false_iff_ne, ne_eq]
    omega
  · intro n
    exact collect_length_of_lt n l h

/-- C9 witness: the interval ints(5,3) is still non-empty after 4 advances,
and a draining collect with fuel 6 consumes all 6 units of fuel. -/
theorem claim_C9_witness :
    3 < (5 : Int) ∧
    pov_empty (pov_advanceN 4 (ints2 5 3)) = false ∧
    (collect pov_ops 6 (ints2 5 3)).length = 6 :=
  ⟨by decide, (claim_C9 5 3 (by decide)).1 4, (claim_C9 5 3 (by decide)).2 6⟩

/-- C10.  take_collect with a zero or negative count returns the empty
container without touching the sequence: the loop requires the remaining
count to be strictly positive, so for every sequence type, every operation
set and every state the result is empty. -/
theorem claim_C10 {σ α : Type} (ops : SeqOps σ α) (how_many : Int) (s : σ)
    (h : how_many ≤ 0) :
    take_collect ops how_many s = [] := by
  rw [take_collect]
  have hc : ¬(ops.empty s = false ∧ 0 < how_many) := by
    rintro ⟨_, h2⟩
    omega
  rw [dif_neg hc]

/-- C10 witness: take_collect with count -2 on the non-empty interval [0,3)
returns the empty container. -/
theorem claim_C10_witness :
    take_collect pov_ops (-2) (ints 3) = [] :=
  claim_C10 pov_ops (-2) (ints 3) (by decide)

/-- Exit condition of the skip-loop: given enough fuel (the distance between
the bounds) and a well-formed interval (begin at most end), the state
reached by skip_if_necessary is empty or its front value satisfies the
predicate. -/
theorem skip_post (m_f : Int → Bool) :
    ∀ (fuel : Nat) (r : pair_of_values),
      r.m_begin ≤ r.m_end → (r.m_end - r.m_begin).toNat ≤ fuel →
      pov_empty (skip_if_necessary m_f fuel r) = true ∨
      m_f (pov_front_val (skip_if_necessary m_f fuel r)) = true := by
  intro fuel
  induction fuel with
  | zero =>
    intro r hle hfuel
    left
    simp only [skip_if_necessary, pov_empty, beq_iff_eq]
    omega
  | succ fuel ih =>
    intro r hle hfuel
    simp only [skip_if_necessary]
    by_cases hcond : (!pov_empty r && !m_f (pov_front_val r)) = true
    · rw [if_pos hcond]
      simp only [Bool.and_eq_true, Bool.not_eq_true'] at hcond
      have hlt : r.m_begin < r.m_end := by
        have hne : ¬(r.m_begin = r.m_end) := by
          have := hcond.1
          simp only [pov_empty, beq_eq_false_iff_ne, ne_eq] at this
          exact this
        omega
      apply ih
      · simp only [pov_advance]
        omega
      · simp only [pov_advance]
        omega
    · rw [if_neg hcond]
      cases he : pov_empty r with
      | true => exact Or.inl rfl
      | false =>
        cases hm : m_f (pov_front_val r) with
        | true => exact Or.inr rfl
        | false =>
          exfalso
          apply hcond
          simp [he, hm]

/-- C2.  The filtered-sequence invariant: a filter_range re-establishes
"cursor at a satisfying element or exhausted" both at construction (the
constructor runs the skip-loop) and after every advance (advance of the
underlying range followed by the skip-loop); and filtering the interval
[0,10) by the odd predicate and collecting yields exactly [1,3,5,7,9].
The skip-loop is fuelled; the distance between the interval bounds is
enough fuel for it to reach its exit condition. -/
theorem claim_C2 :
    (∀ (m_f : Int → Bool) (r : pair_of_values) (fuel : Nat),
        r.m_begin ≤ r.m_end → (r.m_end - r.m_begin).toNat ≤ fuel →
        pov_empty (filter_range_make m_f fuel r) = true ∨
        m_f (pov_front_val (filter_range_make m_f fuel r)) = true) ∧
    (∀ (m_f : Int → Bool) (fuel : Nat) (r : pair_of_values),
        r.m_begin ≤ r.m_end → pov_empty r = false →
        (r.m_end - (r.m_begin + 1)).toNat ≤ fuel →
        pov_empty ((filter_ops m_f fuel).advance r) = true ∨
        m_f (pov_front_val ((filter_ops m_f fuel).advance r)) = true) ∧
    collect (filter_ops odd_t 12) 12 (filter_range_make odd_t 12 (ints 10))
      = [1, 3, 5, 7, 9] := by
  refine ⟨?_, ?_, by decide⟩
  · intro m_f r fuel hle hfuel
    exact skip_post m_f fuel r hle hfuel
  · intro m_f fuel r hle hne hfuel
    have hlt : r.m_begin < r.m_end := by
      simp only [pov_empty, beq_eq_false_iff_ne, ne_eq] at hne
      omega
    have h := skip_post m_f fuel (pov_advance r)
      (by simp only [pov_advance]; omega)
      (by simp only [pov_advance]; omega)
    exact h

/-- C2 witness: at the interval [0,10) with the odd predicate and fuel 12,
the constructed filter state satisfies the invariant. -/
theorem claim_C2_witness :
    pov_empty (filter_range_make odd_t 12 (ints 10)) = true ∨
    odd_t (pov_front_val (filter_range_make odd_t 12 (ints 10))) = true :=
  claim_C2.1 odd_t (ints 10) 12 (by decide) (by decide)

/-- Collecting a zipped pair of list-backed members of equal length yields
exactly the list-level zip of the two member element lists. -/
theorem zip_collect_eq :
    ∀ (n : Nat) (xs ys : List Int), xs.length = ys.length → xs.length ≤ n →
      collect (zip_t list_ops list_ops) n (xs, ys) = xs.zip ys := by
  intro n
  induction n with
  | zero =>
    intro xs ys hlen hle
    have hx : xs = [] := List.length_eq_zero.mp (Nat.le_zero.mp hle)
    have hy : ys = [] := List.length_eq_zero.mp (by omega)
    subst hx
    subst hy
    rfl
  | succ n ih =>
    intro xs ys hlen hle
    cases xs with
    | nil =>
      cases ys with
      | nil => rfl
      | cons y ys => simp at hlen
    | cons x xs =>
      cases ys with
      | nil => simp at hlen
      | cons y ys =>
        have hemp : (zip_t list_ops list_ops).empty (x :: xs, y :: ys) = false := rfl
        simp only [collect, hemp, Bool.false_eq_true, if_false, List.zip_cons_cons]
        have hadv : (zip_t list_ops list_ops).advance (x :: xs, y :: ys) = (xs, ys) := rfl
        have hfront : (zip_t list_ops list_ops).front_val (x :: xs, y :: ys) = (x, y) := rfl
        rw [hadv, hfront, ih xs ys (by simpa using hlen) (by simpa using hle)]

/-- The i-th element of a list-level zip is the pair of the i-th elements. -/
theorem zip_getD :
    ∀ (xs ys : List Int) (i : Nat), i < xs.length → i < ys.length →
      (xs.zip ys).getD i (0, 0) = (xs.getD i 0, ys.getD i 0) := by
  intro xs
  induction xs with
  | nil =>
    intro ys i h1 _
    simp at h1
  | cons x xs ih =>
    intro ys i h1 h2
    cases ys with
    | nil => simp at h2
    | cons y ys =>
      cases i with
      | zero => rfl
      | succ i =>
        simp only [List.zip_cons_cons, List.getD_cons_succ]
        exact ih ys i (by simpa using h1) (by simpa using h2)

/-- C3.  A zipped sequence is empty iff any member is empty, its advance
advances every member together, and its element is the tuple of the
members' current elements; consequently zipping members of equal finite
length N and collecting yields exactly N tuples, the i-th containing the
i-th element of each member. -/
theorem claim_C3 :
    (∀ (σ₁ σ₂ α β : Type) (o1 : SeqOps σ₁ α) (o2 : SeqOps σ₂ β) (z : σ₁ × σ₂),
        ((zip_t o1 o2).empty z = true ↔
          (o1.empty z.1 = true ∨ o2.empty z.2 = true)) ∧
        (zip_t o1 o2).advance z = (o1.advance z.1, o2.advance z.2) ∧
        (zip_t o1 o2).front_val z = (o1.front_val z.1, o2.front_val z.2)) ∧
    (∀ (N n : Nat) (xs ys : List Int), xs.length = N → ys.length = N → N ≤ n →
        (collect (zip_t list_ops list_ops) n (xs, ys)).length = N ∧
        ∀ i : Nat, i < N →
          (collect (zip_t list_ops list_ops) n (xs, ys)).getD i (0, 0)
            = (xs.getD i 0, ys.getD i 0)) := by
  constructor
  · intro σ₁ σ₂ α β o1 o2 z
    exact ⟨by simp [zip_t, Bool.or_eq_true], rfl, rfl⟩
  · intro N n xs ys hx hy hn
    have hcol : collect (zip_t list_ops list_ops) n (xs, ys) = xs.zip ys :=
      zip_collect_eq n xs ys (by omega) (by omega)
    constructor
    · rw [hcol, List.length_zip, hx, hy, Nat.min_self]
    · intro i hi
      rw [hcol]
      exact zip_getD xs ys i (by omega) (by omega)

/-- C3 witness: zipping [1,2,3] with [4,5,6] and collecting yields 3 tuples
and the tuple at index 1 pairs the members' elements at index 1. -/
theorem claim_C3_witness :
    (collect (zip_t list_ops list_ops) 3 ([1, 2, 3], [4, 5, 6])).length = 3 ∧
    (collect (zip_t list_ops list_ops) 3 ([1, 2, 3], [4, 5, 6])).getD 1 (0, 0)
      = (List.getD [1, 2, 3] 1 0, List.getD [4, 5, 6] 1 0) :=
  have h := claim_C3.2 3 3 [1, 2, 3] [4, 5, 6] (by decide) (by decide) (by decide)
  ⟨h.1, h.2 1 (by decide)⟩

/-- Writing an element at a valid index and reading the same index back
yields the written value. -/
theorem list_getD_set :
    ∀ (xs : List Int) (i : Nat) (v : Int), i < xs.length →
      (xs.set i v).getD i 0 = v := by
  intro xs
  induction xs with
  | nil =>
    intro i v h
    simp at h
  | cons x xs ih =>
    intro i v h
    cases i with
    | zero => rfl
    | succ i =>
      simp only [List.set_cons_succ, List.getD_cons_succ]
      exact ih i v (by simpa using h)

/-- C5.  orange::front_val uses the declared trait front_val when present,
otherwise derives it from the declared front_ref by copying out; the range
is taken by const reference, so repeated calls without an intervening
advance return equal values; and the result is a value copy of the current
element, read out of the storage at call time: on from_vector_t (which
declares only front_ref) it returns the element currently referenced, and
after a write through front_ref it returns the newly written value while
any previously returned copy is unaffected. -/
theorem claim_C5 :
    (∀ (σ α : Type) (t : traits_t σ α) (f : σ → α) (s : σ),
        t.front_val = some f → orange_front_val t s = some (f s)) ∧
    (∀ (σ α : Type) (t : traits_t σ α) (g : σ → α) (s : σ),
        t.front_val = none → t.front_ref = some g →
        orange_front_val t s = some (g s)) ∧
    (∀ (σ α : Type) (t : traits_t σ α) (s : σ) (v1 v2 : α),
        orange_front_val t s = some v1 → orange_front_val t s = some v2 →
        v1 = v2) ∧
    (∀ r : from_vector_t,
        orange_front_val fv_traits r = some (fv_front_ref_read r)) ∧
    (∀ (r : from_vector_t) (v : Int), r.m_i < r.m_v.length →
        orange_front_val fv_traits (fv_write_front_ref r v) = some v) := by
  refine ⟨?_, ?_, ?_, ?_, ?_⟩
  · intro σ α t f s hf
    simp [orange_front_val, hf]
  · intro σ α t g s hf hg
    simp [orange_front_val, hf, hg]
  · intro σ α t s v1 v2 h1 h2
    rw [h1] at h2
    exact Option.some.inj h2
  · intro r
    rfl
  · intro r v h
    have : fv_front_ref_read (fv_write_front_ref r v) = v := by
      simp only [fv_front_ref_read, fv_write_front_ref]
      exact list_getD_set r.m_v r.m_i v h
    simp [orange_front_val, fv_traits, this]

/-- C5 witness: on pair_of_values the declared front_val is used; on
from_vector_t the synthesized copy-out reads the referenced element, and
after writing 9 through front_ref at index 0 a fresh front_val returns 9. -/
theorem claim_C5_witness :
    orange_front_val pov_traits (ints 3) = some (pov_front_val (ints 3)) ∧
    orange_front_val fv_traits { m_v := [7, 8], m_i := 0 } = some 7 ∧
    orange_front_val fv_traits
        (fv_write_front_ref { m_v := [7, 8], m_i := 0 } 9) = some 9 :=
  ⟨claim_C5.1 pair_of_values Int pov_traits pov_front_val (ints 3) rfl,
   (claim_C5.2.2.2.1 { m_v := [7, 8], m_i := 0 }).trans (by decide),
   claim_C5.2.2.2.2 { m_v := [7, 8], m_i := 0 } 9 (by decide)⟩

/-- With members of equal length the strict zip empty check never hits its
assertion: either every member is non-empty, or every member is empty. -/
theorem zip_val_empty_isSome_of_len_eq :
    ∀ (xs ys : List Int), xs.length = ys.length →
      (zip_val_empty xs ys).isSome = true := by
  intro xs ys h
  cases xs with
  | nil =>
    cases ys with
    | nil => rfl
    | cons y ys => simp at h
  | cons x xs =>
    cases ys with
    | nil => simp at h
    | cons y ys => rfl

/-- C6.  In the strict (zip_val, enforce_same_length) policy the internal
length-mismatch assertion never fires when the members are finite sequences
of equal length: at every state reachable by the zipped advance (which
advances every member together, so after k advances each member has dropped
its first k elements) the empty check completes, and whenever it reports
empty every member is itself empty (list-backed members are never
definitely-infinite).  Zipping finite members of unequal length is instead
surfaced by that assertion: at members ([], [0]) — reached by zipping a
length-1 member with a length-2 member and advancing once — the empty check
hits the assertion (modelled as none) rather than returning a value. -/
theorem claim_C6 :
    (∀ (xs ys : List Int), xs.length = ys.length →
        ∀ k : Nat, (zip_val_empty (xs.drop k) (ys.drop k)).isSome = true) ∧
    zip_val_empty [] [0] = none := by
  constructor
  · intro xs ys h k
    apply zip_val_empty_isSome_of_len_eq
    simp [h]
  · rfl

/-- C6 witness: zipping the equal-length members [3] and [4], the empty
check still completes after one joint advance. -/
theorem claim_C6_witness :
    (zip_val_empty (List.drop 1 [3]) (List.drop 1 [4])).isSome = true :=
  claim_C6.1 [3] [4] rfl 1

/-- C7.  In the variant defining the dedicated pull-from-empty error
condition, the defensive pull raises pull_from_empty_range_error exactly
when the sequence is already empty at the call: it raises iff empty, and on
a non-empty sequence it returns the front value and the advanced state.
The defensive adapter itself is modelled from the spec (see
defensive_pull); the error type is declared in src/unnamed/part_004. -/
theorem claim_C7 :
    ∀ xs : List Int, raised (defensive_pull xs) = xs.isEmpty := by
  intro xs
  cases he : xs.isEmpty with
  | true => simp [defensive_pull, raised, he]
  | false => simp [defensive_pull, raised, he]
